import Mathlib

/-!
Verification of the web-server scheduling simulator (src/os1.py).

The embedding follows the Python source closely:

* `Request` mirrors the `Request` class: integer id, processing time,
  priority, remaining time (Python ints, modelled as `ℤ`) and a float
  arrival time (modelled exactly as `ℚ`, since the program only ever
  compares arrival times and never does arithmetic on them).
* `WebServer.process_round_robin` is an imperative while-loop over a
  deque; it is modelled as the step function `rrStep` (one loop body
  iteration) driven by the fuelled loop `rrRun`.  Fuel is needed because
  the Python loop genuinely diverges for `time_quantum ≤ 0`; `none`
  means the loop has not reached the empty queue within the given fuel.
* `process_priority_scheduling` and `process_shortest_job_first` both
  repeatedly take `min(queue, key=...)` and `queue.remove(...)` it.
  Python's `min` returns the first element attaining the minimal key and
  `remove` deletes exactly that element, so both are modelled by
  `extractMin`, parametrised by the boolean comparison corresponding to
  the Python key (for tuple keys, lexicographic comparison).
* `generate_requests` draws random numbers; the draws are passed in as
  oracle functions `ptDraw`, `prDraw`, `arrDraw` (range side conditions
  of `random.randint`/`random.uniform` become hypotheses of theorems).
  Python's `sorted` is a stable sort by key; it is modelled by the
  stable insertion sort `sortByArrival`.
* `simulate_scheduling` dispatches on the algorithm string and raises
  `ValueError` on an unknown algorithm; it is modelled by
  `simulate_fuel`, returning `Except` for the raise channel inside an
  `Option` for the possible divergence of the round-robin loop.  The
  wall-clock duration returned by the Python function is presentation
  data with no influence on completions and is not modelled.
-/

/-- Mirror of the Python `Request` class (src/os1.py lines 8-14).
`remaining_time` is initialised to `processing_time` by the constructor;
here it is an ordinary field so that mutation can be modelled by
functional update. -/
structure Request where
  id : ℤ
  processing_time : ℤ
  priority : ℤ
  arrival_time : ℚ
  remaining_time : ℤ
deriving DecidableEq

/-- State of the round-robin while-loop of `WebServer.process_round_robin`
(src/os1.py lines 26-42): the deque, the cumulative `total_time`, and the
`completed_requests` accumulator. -/
structure RRState where
  queue : List Request
  total_time : ℤ
  completed : List (Request × ℤ)
deriving DecidableEq

/-- One iteration of the round-robin loop body (src/os1.py lines 30-40):
pop the head; if its remaining time is at most the quantum, advance the
clock by the remaining time, zero it and record the completion, else
advance the clock by the quantum, subtract the quantum and requeue at
the tail.  On an empty queue the loop body is never entered. -/
def rrStep (tq : ℤ) (s : RRState) : RRState :=
  match s.queue with
  | [] => s
  | r :: rest =>
    if r.remaining_time ≤ tq then
      { queue := rest,
        total_time := s.total_time + r.remaining_time,
        completed := s.completed ++
          [({ r with remaining_time := 0 }, s.total_time + r.remaining_time)] }
    else
      { queue := rest ++ [{ r with remaining_time := r.remaining_time - tq }],
        total_time := s.total_time + tq,
        completed := s.completed }

/-- The round-robin while-loop (src/os1.py line 30), driven by fuel:
`some` is reached exactly when the queue empties within the fuel, `none`
models a loop still running (for `tq ≤ 0` the Python loop runs forever). -/
def rrRun (tq : ℤ) : ℕ → RRState → Option RRState
  | 0, s => if s.queue = [] then some s else none
  | Nat.succ n, s => if s.queue = [] then some s else rrRun tq n (rrStep tq s)

/-- Termination measure for round-robin with a positive quantum: queue
length plus total (truncated) remaining time. -/
def rrMeasure (l : List Request) : ℕ :=
  l.length + (l.map (fun r => r.remaining_time.toNat)).sum

/-- Sum of the remaining times of the queued requests, over `ℤ`. -/
def totalRemaining (l : List Request) : ℤ :=
  (l.map (fun r => r.remaining_time)).sum

/-- Initial loop state after `add_request`ing a batch in order
(src/os1.py lines 20-24 and 86-88). -/
def initState (l : List Request) : RRState :=
  { queue := l, total_time := 0, completed := [] }

/-- `WebServer.process_round_robin` on a freshly loaded queue, given
enough fuel for the positive-quantum case; `.completed` of the result is
the Python return value. -/
def process_round_robin (tq : ℤ) (l : List Request) : Option RRState :=
  rrRun tq (rrMeasure l) (initState l)

/-- Model of `min(queue, key=...)` followed by `queue.remove(...)`
(src/os1.py lines 50-54 and 66-70): returns the first element attaining
the minimal key together with the queue with exactly that element
removed, or `none` on the empty queue.  `le` is the non-strict total
comparison induced by the Python key (so keeping the earlier element on
ties matches `min` returning the first minimum). -/
def extractMin (le : Request → Request → Bool) : List Request → Option (Request × List Request)
  | [] => none
  | r :: rest =>
    match extractMin le rest with
    | none => some (r, [])
    | some (m, rest2) => if le r m then some (r, rest) else some (m, r :: rest2)

/-- The selection-scheduling while-loop shared by
`process_priority_scheduling` and `process_shortest_job_first`
(src/os1.py lines 48-58 and 64-74): repeatedly extract the minimum,
advance the clock by its full `processing_time` and record the
completion.  The loop removes one request per iteration, so fuel
`l.length` runs it to the empty queue. -/
def runSelectAux (le : Request → Request → Bool) : ℕ → List Request → ℤ → List (Request × ℤ)
  | 0, _, _ => []
  | Nat.succ n, l, t =>
    match extractMin le l with
    | none => []
    | some (m, rest) => (m, t + m.processing_time) :: runSelectAux le n rest (t + m.processing_time)

/-- Python key `lambda x: x.priority` (src/os1.py line 52). -/
def priorityKeyLe (a b : Request) : Bool :=
  decide (a.priority ≤ b.priority)

/-- Python key `lambda x: (x.priority, x.arrival_time)` (src/os1.py
line 50); tuple comparison is lexicographic. -/
def priorityPreemptKeyLe (a b : Request) : Bool :=
  decide (a.priority < b.priority ∨ (a.priority = b.priority ∧ a.arrival_time ≤ b.arrival_time))

/-- Python key `lambda x: x.processing_time` (src/os1.py line 68). -/
def sjfKeyLe (a b : Request) : Bool :=
  decide (a.processing_time ≤ b.processing_time)

/-- Python key `lambda x: (x.remaining_time, x.arrival_time)`
(src/os1.py line 66); tuple comparison is lexicographic. -/
def sjfPreemptKeyLe (a b : Request) : Bool :=
  decide (a.remaining_time < b.remaining_time ∨ (a.remaining_time = b.remaining_time ∧ a.arrival_time ≤ b.arrival_time))

/-- `WebServer.process_priority_scheduling` (src/os1.py lines 44-58). -/
def process_priority_scheduling (preemptive : Bool) (l : List Request) : List (Request × ℤ) :=
  if preemptive then runSelectAux priorityPreemptKeyLe l.length l 0
  else runSelectAux priorityKeyLe l.length l 0

/-- `WebServer.process_shortest_job_first` (src/os1.py lines 60-74). -/
def process_shortest_job_first (preemptive : Bool) (l : List Request) : List (Request × ℤ) :=
  if preemptive then runSelectAux sjfPreemptKeyLe l.length l 0
  else runSelectAux sjfKeyLe l.length l 0

/-- Intended output order of the generator: non-decreasing arrival time,
ties in the order the requests were generated (their ids). -/
def arrivalIdLe (a b : Request) : Prop :=
  a.arrival_time < b.arrival_time ∨ (a.arrival_time = b.arrival_time ∧ a.id < b.id)

/-- Stable insertion into a list sorted by arrival time: the new element
goes before every element whose arrival time is not strictly smaller, so
among equal arrival times an element inserted later from the left ends
up first exactly when it came earlier in the input. -/
def insertArrival (r : Request) : List Request → List Request
  | [] => [r]
  | x :: xs => if x.arrival_time < r.arrival_time then x :: insertArrival r xs else r :: x :: xs

/-- Model of Python's stable `sorted(requests, key=lambda x: x.arrival_time)`
(src/os1.py line 83) as a stable insertion sort. -/
def sortByArrival : List Request → List Request
  | [] => []
  | x :: xs => insertArrival x (sortByArrival xs)

/-- `Request(i, processing_time, priority, arrival_time)` as built in the
generator loop (src/os1.py line 82). -/
def mkRequest (i : ℕ) (pt pr : ℤ) (arr : ℚ) : Request :=
  { id := (i : ℤ), processing_time := pt, priority := pr, arrival_time := arr,
    remaining_time := pt }

/-- `generate_requests` (src/os1.py lines 76-83).  `num_requests` is a
Python int: `range` of a negative number is empty, which `Int.toNat`
captures.  The random draws of iteration `i` are the oracle values
`ptDraw i` (`random.randint(1, 10)`), `prDraw i` (`random.randint(1, 5)`)
and `arrDraw i` (`random.uniform(0, max_arrival_time)`); their range
guarantees become hypotheses of the theorems.  The function body raises
nothing, hence the unconditional `Except.ok`. -/
def generate_requests (num_requests : ℤ) (max_arrival_time : ℚ)
    (ptDraw prDraw : ℕ → ℤ) (arrDraw : ℕ → ℚ) : Except String (List Request) :=
  Except.ok (sortByArrival
    ((List.range num_requests.toNat).map
      (fun i => mkRequest i (ptDraw i) (prDraw i) (arrDraw i))))

/-- `simulate_scheduling` (src/os1.py lines 85-101): load the batch into
a fresh server and dispatch on the algorithm string, raising `ValueError`
on anything unknown.  The outer `Option` carries the round-robin fuel
(`none` = the loop has not terminated); the other branches always
terminate.  The wall-clock `end_time - start_time` is not modelled. -/
def simulate_fuel (fuel : ℕ) (requests : List Request) (algorithm : String)
    (time_quantum : ℤ) (preemptive : Bool) : Option (Except String (List (Request × ℤ))) :=
  if algorithm = "round_robin" then
    Option.map (fun f => Except.ok f.completed) (rrRun time_quantum fuel (initState requests))
  else if algorithm = "priority" then
    some (Except.ok (process_priority_scheduling preemptive requests))
  else if algorithm = "sjf" then
    some (Except.ok (process_shortest_job_first preemptive requests))
  else
    some (Except.error "Invalid scheduling algorithm")

/-- Concrete request: id 1, processing time 5 (spec round-robin example). -/
def reqA : Request := { id := 1, processing_time := 5, priority := 1, arrival_time := 0, remaining_time := 5 }

/-- Concrete request: id 2, processing time 3 (spec round-robin example). -/
def reqB : Request := { id := 2, processing_time := 3, priority := 1, arrival_time := 0, remaining_time := 3 }

/-- Concrete request with priority 3, processing time 4 (spec priority example). -/
def reqP3 : Request := { id := 1, processing_time := 4, priority := 3, arrival_time := 0, remaining_time := 4 }

/-- Concrete request with priority 1, processing time 2 (spec priority example). -/
def reqP1 : Request := { id := 2, processing_time := 2, priority := 1, arrival_time := 0, remaining_time := 2 }

/-- Concrete request with priority 2, processing time 5 (spec priority example). -/
def reqP2 : Request := { id := 3, processing_time := 5, priority := 2, arrival_time := 0, remaining_time := 5 }

/-- Constant oracle for the integer draws, used in concrete instances. -/
def constantIntDraw : ℕ → ℤ := fun _ => 5

/-- Constant oracle for the arrival-time draws, used in concrete instances. -/
def constantRatDraw : ℕ → ℚ := fun _ => 1

/-! ### Lemmas about `extractMin` -/

theorem extractMin_eq_none {le : Request → Request → Bool} {l : List Request} :
    extractMin le l = none ↔ l = [] := by
  cases l with
  | nil => simp [extractMin]
  | cons r rest =>
    simp only [extractMin]
    cases h : extractMin le rest with
    | none => simp
    | some p =>
      obtain ⟨m, rest2⟩ := p
      by_cases hle : le r m <;> simp [hle]

theorem extractMin_split {le : Request → Request → Bool} :
    ∀ {l : List Request} {m : Request} {rest : List Request},
      extractMin le l = some (m, rest) →
      ∃ l₁ l₂, l = l₁ ++ m :: l₂ ∧ rest = l₁ ++ l₂ ∧ ∀ x ∈ l₁, le x m = false := by
  intro l
  induction l with
  | nil => intro m rest h; simp [extractMin] at h
  | cons r rs ih =>
    intro m rest h
    simp only [extractMin] at h
    cases h2 : extractMin le rs with
    | none =>
      rw [h2] at h
      have hrs : rs = [] := extractMin_eq_none.mp h2
      obtain ⟨rfl, rfl⟩ : r = m ∧ ([] : List Request) = rest := by
        simpa using h
      exact ⟨[], [], by simp [hrs], by simp, by simp⟩
    | some p =>
      obtain ⟨m2, rest2⟩ := p
      rw [h2] at h
      by_cases hle : le r m2
      · simp only [hle, if_true] at h
        obtain ⟨rfl, rfl⟩ : r = m ∧ rs = rest := by simpa using h
        exact ⟨[], rs, by simp, by simp, by simp⟩
      · simp only [hle, if_false] at h
        obtain ⟨rfl, rfl⟩ : m2 = m ∧ r :: rest2 = rest := by simpa using h
        obtain ⟨l₁, l₂, hrs, hrest2, hfirst⟩ := ih h2
        refine ⟨r :: l₁, l₂, by simp [hrs], by simp [hrest2], ?_⟩
        intro x hx
        rcases List.mem_cons.mp hx with rfl | hx
        · simpa using hle
        · exact hfirst x hx

theorem extractMin_min {le : Request → Request → Bool}
    (htot : ∀ a b, le a b = true ∨ le b a = true)
    (htrans : ∀ a b c, le a b = true → le b c = true → le a c = true) :
    ∀ {l : List Request} {m : Request} {rest : List Request},
      extractMin le l = some (m, rest) → ∀ x ∈ l, le m x = true := by
  intro l
  induction l with
  | nil => intro m rest h; simp [extractMin] at h
  | cons r rs ih =>
    intro m rest h x hx
    simp only [extractMin] at h
    cases h2 : extractMin le rs with
    | none =>
      rw [h2] at h
      have hrs : rs = [] := extractMin_eq_none.mp h2
      obtain ⟨rfl, -⟩ : r = m ∧ ([] : List Request) = rest := by simpa using h
      rcases List.mem_cons.mp hx with rfl | hx
      · rcases htot x x with hmm | hmm <;> exact hmm
      · simp [hrs] at hx
    | some p =>
      obtain ⟨m2, rest2⟩ := p
      rw [h2] at h
      by_cases hle : le r m2
      · simp only [hle, if_true] at h
        obtain ⟨rfl, -⟩ : r = m ∧ rs = rest := by simpa using h
        rcases List.mem_cons.mp hx with rfl | hx
        · rcases htot x x with hmm | hmm <;> exact hmm
        · exact htrans _ _ _ hle (ih h2 x hx)
      · simp only [hle, if_false] at h
        obtain ⟨heq, -⟩ : m2 = m ∧ r :: rest2 = rest := by simpa using h
        subst heq
        rcases List.mem_cons.mp hx with h4 | h4
        · subst h4
          rcases htot x m2 with h5 | h5
          · exact absurd h5 hle
          · exact h5
        · exact ih h2 x h4

theorem extractMin_perm {le : Request → Request → Bool} {l : List Request}
    {m : Request} {rest : List Request} (h : extractMin le l = some (m, rest)) :
    l.Perm (m :: rest) := by
  obtain ⟨l₁, l₂, rfl, rfl, -⟩ := extractMin_split h
  exact List.perm_middle

theorem extractMin_length {le : Request → Request → Bool} {l : List Request}
    {m : Request} {rest : List Request} (h : extractMin le l = some (m, rest)) :
    l.length = rest.length + 1 := by
  simpa using (extractMin_perm h).length_eq

theorem extractMin_mem {le : Request → Request → Bool} {l : List Request}
    {m : Request} {rest : List Request} (h : extractMin le l = some (m, rest)) :
    m ∈ l :=
  (extractMin_perm h).mem_iff.mpr (List.mem_cons_self m rest)

theorem extractMin_isSome {le : Request → Request → Bool} {l : List Request}
    (h : l ≠ []) : ∃ m rest, extractMin le l = some (m, rest) := by
  cases h2 : extractMin le l with
  | none => exact absurd (extractMin_eq_none.mp h2) h
  | some p =>
    obtain ⟨m, rest⟩ := p
    exact ⟨m, rest, rfl⟩

/-! ### Lemmas about `runSelectAux` -/

theorem runSelectAux_fst_perm (le : Request → Request → Bool) :
    ∀ (n : ℕ) (l : List Request) (t : ℤ), l.length ≤ n →
      ((runSelectAux le n l t).map Prod.fst).Perm l := by
  intro n
  induction n with
  | zero =>
    intro l t hl
    have : l = [] := List.eq_nil_of_length_eq_zero (Nat.le_zero.mp hl)
    subst this
    simp [runSelectAux]
  | succ n ih =>
    intro l t hl
    simp only [runSelectAux]
    cases h : extractMin le l with
    | none =>
      have : l = [] := extractMin_eq_none.mp h
      subst this; simp
    | some p =>
      obtain ⟨m, rest⟩ := p
      have hlen : l.length = rest.length + 1 := extractMin_length h
      have hrest : rest.length ≤ n := by omega
      simp only [List.map_cons]
      exact (List.Perm.cons m (ih rest _ hrest)).trans (extractMin_perm h).symm

theorem runSelectAux_length (le : Request → Request → Bool)
    (n : ℕ) (l : List Request) (t : ℤ) (hl : l.length ≤ n) :
    (runSelectAux le n l t).length = l.length := by
  have h2 := (runSelectAux_fst_perm le n l t hl).length_eq
  simpa using h2

theorem runSelectAux_ids_perm (le : Request → Request → Bool)
    (n : ℕ) (l : List Request) (t : ℤ) (hl : l.length ≤ n) :
    ((runSelectAux le n l t).map (fun p => p.1.id)).Perm (l.map Request.id) := by
  have h1 : (runSelectAux le n l t).map (fun p => p.1.id)
      = ((runSelectAux le n l t).map Prod.fst).map Request.id := by
    simp [List.map_map]
  rw [h1]
  exact (runSelectAux_fst_perm le n l t hl).map Request.id

/-! ### The four Python keys are total transitive comparisons -/

theorem intKey_total (f : Request → ℤ) :
    ∀ a b, decide (f a ≤ f b) = true ∨ decide (f b ≤ f a) = true := by
  intro a b
  simp only [decide_eq_true_eq]
  omega

theorem intKey_trans (f : Request → ℤ) :
    ∀ a b c, decide (f a ≤ f b) = true → decide (f b ≤ f c) = true →
      decide (f a ≤ f c) = true := by
  intro a b c
  simp only [decide_eq_true_eq]
  omega

theorem lexKey_total (f : Request → ℤ) (g : Request → ℚ) :
    ∀ a b, decide (f a < f b ∨ (f a = f b ∧ g a ≤ g b)) = true ∨
      decide (f b < f a ∨ (f b = f a ∧ g b ≤ g a)) = true := by
  intro a b
  simp only [decide_eq_true_eq]
  rcases lt_trichotomy (f a) (f b) with h | h | h
  · exact Or.inl (Or.inl h)
  · rcases le_total (g a) (g b) with h2 | h2
    · exact Or.inl (Or.inr ⟨h, h2⟩)
    · exact Or.inr (Or.inr ⟨h.symm, h2⟩)
  · exact Or.inr (Or.inl h)

theorem lexKey_trans (f : Request → ℤ) (g : Request → ℚ) :
    ∀ a b c, decide (f a < f b ∨ (f a = f b ∧ g a ≤ g b)) = true →
      decide (f b < f c ∨ (f b = f c ∧ g b ≤ g c)) = true →
      decide (f a < f c ∨ (f a = f c ∧ g a ≤ g c)) = true := by
  intro a b c
  simp only [decide_eq_true_eq]
  rintro (h1 | ⟨h1e, h1a⟩) (h2 | ⟨h2e, h2a⟩)
  · exact Or.inl (h1.trans h2)
  · exact Or.inl (h1.trans_le (le_of_eq h2e))
  · exact Or.inl ((le_of_eq h1e).trans_lt h2)
  · exact Or.inr ⟨h1e.trans h2e, h1a.trans h2a⟩

theorem priorityKeyLe_total : ∀ a b, priorityKeyLe a b = true ∨ priorityKeyLe b a = true :=
  intKey_total (fun r => r.priority)

theorem priorityKeyLe_trans :
    ∀ a b c, priorityKeyLe a b = true → priorityKeyLe b c = true → priorityKeyLe a c = true :=
  intKey_trans (fun r => r.priority)

theorem priorityPreemptKeyLe_total :
    ∀ a b, priorityPreemptKeyLe a b = true ∨ priorityPreemptKeyLe b a = true :=
  lexKey_total (fun r => r.priority) (fun r => r.arrival_time)

theorem priorityPreemptKeyLe_trans :
    ∀ a b c, priorityPreemptKeyLe a b = true → priorityPreemptKeyLe b c = true →
      priorityPreemptKeyLe a c = true :=
  lexKey_trans (fun r => r.priority) (fun r => r.arrival_time)

theorem sjfKeyLe_total : ∀ a b, sjfKeyLe a b = true ∨ sjfKeyLe b a = true :=
  intKey_total (fun r => r.processing_time)

theorem sjfKeyLe_trans :
    ∀ a b c, sjfKeyLe a b = true → sjfKeyLe b c = true → sjfKeyLe a c = true :=
  intKey_trans (fun r => r.processing_time)

theorem sjfPreemptKeyLe_total :
    ∀ a b, sjfPreemptKeyLe a b = true ∨ sjfPreemptKeyLe b a = true :=
  lexKey_total (fun r => r.remaining_time) (fun r => r.arrival_time)

theorem sjfPreemptKeyLe_trans :
    ∀ a b c, sjfPreemptKeyLe a b = true → sjfPreemptKeyLe b c = true →
      sjfPreemptKeyLe a c = true :=
  lexKey_trans (fun r => r.remaining_time) (fun r => r.arrival_time)

/-! ### More `runSelectAux` lemmas -/

theorem runSelectAux_nil (le : Request → Request → Bool) (n : ℕ) (t : ℤ) :
    runSelectAux le n [] t = [] := by
  cases n <;> simp [runSelectAux, extractMin]

theorem runSelectAux_cons (le : Request → Request → Bool) (n : ℕ) (l : List Request)
    (t : ℤ) (m : Request) (rest : List Request) (h : extractMin le l = some (m, rest)) :
    runSelectAux le (n + 1) l t =
      (m, t + m.processing_time) :: runSelectAux le n rest (t + m.processing_time) := by
  simp [runSelectAux, h]

theorem runSelectAux_times (le : Request → Request → Bool) :
    ∀ (n : ℕ) (l : List Request) (t : ℤ), l.length ≤ n →
      (∀ r ∈ l, 1 ≤ r.processing_time) →
      (∀ x ∈ (runSelectAux le n l t).map Prod.snd, t < x) ∧
      List.Pairwise (· ≤ ·) ((runSelectAux le n l t).map Prod.snd) ∧
      (l ≠ [] → ((runSelectAux le n l t).map Prod.snd).getLast?
        = some (t + (l.map (fun r => r.processing_time)).sum)) := by
  intro n
  induction n with
  | zero =>
    intro l t hl hpt
    have hnil : l = [] := List.eq_nil_of_length_eq_zero (Nat.le_zero.mp hl)
    subst hnil
    simp [runSelectAux]
  | succ n ih =>
    intro l t hl hpt
    cases h : extractMin le l with
    | none =>
      have hnil : l = [] := extractMin_eq_none.mp h
      subst hnil
      simp [runSelectAux, extractMin]
    | some p =>
      obtain ⟨m, rest⟩ := p
      have hperm := extractMin_perm h
      have hlen : l.length = rest.length + 1 := extractMin_length h
      have hrest_le : rest.length ≤ n := by omega
      have hmem : ∀ r ∈ rest, r ∈ l := fun r hr => hperm.mem_iff.mpr (List.mem_cons_of_mem _ hr)
      have hm : m ∈ l := hperm.mem_iff.mpr (List.mem_cons_self _ _)
      have hpt_rest : ∀ r ∈ rest, 1 ≤ r.processing_time := fun r hr => hpt r (hmem r hr)
      have hmpt : 1 ≤ m.processing_time := hpt m hm
      obtain ⟨ih1, ih2, ih3⟩ := ih rest (t + m.processing_time) hrest_le hpt_rest
      have hsum : (l.map (fun r => r.processing_time)).sum
          = m.processing_time + (rest.map (fun r => r.processing_time)).sum := by
        have h5 := (hperm.map (fun r => r.processing_time)).sum_eq
        simpa using h5
      rw [runSelectAux_cons le n l t m rest h]
      simp only [List.map_cons]
      refine ⟨?_, ?_, ?_⟩
      · intro x hx
        rcases List.mem_cons.mp hx with rfl | hx
        · omega
        · have h6 := ih1 x hx
          omega
      · refine List.Pairwise.cons ?_ ih2
        intro x hx
        have h6 := ih1 x hx
        omega
      · intro hl2
        by_cases hrest_nil : rest = []
        · subst hrest_nil
          rw [runSelectAux_nil]
          simp only [List.map_nil] at hsum ⊢
          simp only [List.sum_nil, add_zero] at hsum
          simp [hsum]
        · have hlen2 : ((runSelectAux le n rest (t + m.processing_time)).map Prod.snd).length
              = rest.length := by
            simp [runSelectAux_length le n rest _ hrest_le]
          have htail : (runSelectAux le n rest (t + m.processing_time)).map Prod.snd ≠ [] := by
            intro hc
            rw [hc] at hlen2
            exact hrest_nil (List.eq_nil_of_length_eq_zero hlen2.symm)
          obtain ⟨y, ys, hys⟩ := List.exists_cons_of_ne_nil htail
          rw [hys, List.getLast?_cons_cons, ← hys, ih3 hrest_nil, hsum]
          congr 1
          ring

/-! ### Round-robin loop lemmas -/

theorem rrRun_inv (tq : ℤ) (P : RRState → Prop)
    (hstep : ∀ s, s.queue ≠ [] → P s → P (rrStep tq s)) :
    ∀ (n : ℕ) (s f : RRState), rrRun tq n s = some f → P s → P f := by
  intro n
  induction n with
  | zero =>
    intro s f h hP
    simp only [rrRun] at h
    by_cases hq : s.queue = []
    · rw [if_pos hq] at h
      obtain rfl : s = f := by simpa using h
      exact hP
    · rw [if_neg hq] at h
      exact absurd h (by simp)
  | succ n ih =>
    intro s f h hP
    simp only [rrRun] at h
    by_cases hq : s.queue = []
    · rw [if_pos hq] at h
      obtain rfl : s = f := by simpa using h
      exact hP
    · rw [if_neg hq] at h
      exact ih _ _ h (hstep s hq hP)

theorem rrStep_measure (tq : ℤ) (s : RRState) (htq : 1 ≤ tq) (hq : s.queue ≠ []) :
    rrMeasure (rrStep tq s).queue < rrMeasure s.queue := by
  obtain ⟨q, tt, c⟩ := s
  simp only at hq
  obtain ⟨r, rest, rfl⟩ := List.exists_cons_of_ne_nil hq
  by_cases hr : r.remaining_time ≤ tq
  · simp only [rrStep, hr, if_true, rrMeasure, List.length_cons, List.map_cons, List.sum_cons]
    omega
  · simp only [rrStep, hr, if_false, rrMeasure, List.length_append, List.length_cons,
      List.map_append, List.sum_append, List.map_cons, List.sum_cons, List.length_nil,
      List.map_nil, List.sum_nil]
    omega

theorem rrRun_term (tq : ℤ) (htq : 1 ≤ tq) :
    ∀ (n : ℕ) (s : RRState), rrMeasure s.queue ≤ n →
      ∃ f, rrRun tq n s = some f ∧ f.queue = [] := by
  intro n
  induction n with
  | zero =>
    intro s hm
    have hq : s.queue = [] := by
      simp only [rrMeasure] at hm
      exact List.eq_nil_of_length_eq_zero (by omega)
    exact ⟨s, by simp [rrRun, hq], hq⟩
  | succ n ih =>
    intro s hm
    by_cases hq : s.queue = []
    · exact ⟨s, by simp [rrRun, hq], hq⟩
    · have hs := rrStep_measure tq s htq hq
      obtain ⟨f, hf, hfq⟩ := ih (rrStep tq s) (by omega)
      exact ⟨f, by simp [rrRun, hq, hf], hfq⟩

/-- Combined multiset-style view of a loop state: ids still queued plus
ids already completed, as one list. -/
def stateIds (s : RRState) : List ℤ :=
  s.queue.map Request.id ++ s.completed.map (fun p => p.1.id)

theorem rrStep_ids_perm (tq : ℤ) (s : RRState) (hq : s.queue ≠ []) :
    (stateIds (rrStep tq s)).Perm (stateIds s) := by
  obtain ⟨q, tt, c⟩ := s
  simp only at hq
  obtain ⟨r, rest, rfl⟩ := List.exists_cons_of_ne_nil hq
  by_cases hr : r.remaining_time ≤ tq
  · simp only [stateIds, rrStep, hr, if_true, List.map_append, List.map_cons, List.map_nil,
      List.cons_append]
    rw [← List.append_assoc]
    exact List.perm_append_singleton _ _
  · simp only [stateIds, rrStep, hr, if_false, List.map_append, List.map_cons, List.map_nil,
      List.cons_append]
    exact List.Perm.append_right _ (List.perm_append_singleton r.id (rest.map Request.id))

theorem rrStep_total (tq : ℤ) (s : RRState) (hq : s.queue ≠ []) :
    (rrStep tq s).total_time + totalRemaining (rrStep tq s).queue
      = s.total_time + totalRemaining s.queue := by
  obtain ⟨q, tt, c⟩ := s
  simp only at hq
  obtain ⟨r, rest, rfl⟩ := List.exists_cons_of_ne_nil hq
  by_cases hr : r.remaining_time ≤ tq
  · simp only [rrStep, hr, if_true, totalRemaining, List.map_cons, List.sum_cons]
    ring
  · simp only [rrStep, hr, if_false, totalRemaining, List.map_append, List.sum_append,
      List.map_cons, List.sum_cons, List.map_nil, List.sum_nil]
    ring

/-- Running invariant of the round-robin loop on a well-formed fresh
batch: queued requests keep `1 ≤ remaining_time ≤ processing_time`,
completed requests have `remaining_time = 0`, emission times are
positive, bounded by the clock and non-decreasing, and the clock is
non-negative. -/
def rrGood (s : RRState) : Prop :=
  (∀ r ∈ s.queue, 1 ≤ r.remaining_time ∧ r.remaining_time ≤ r.processing_time ∧
    1 ≤ r.processing_time) ∧
  (∀ p ∈ s.completed, p.1.remaining_time = 0 ∧ 1 ≤ p.1.processing_time) ∧
  (∀ x ∈ s.completed.map Prod.snd, 1 ≤ x ∧ x ≤ s.total_time) ∧
  List.Pairwise (· ≤ ·) (s.completed.map Prod.snd) ∧
  0 ≤ s.total_time

theorem rrStep_good (tq : ℤ) (htq : 1 ≤ tq) (s : RRState) (h : rrGood s) :
    rrGood (rrStep tq s) := by
  obtain ⟨q, tt, c⟩ := s
  obtain ⟨h1, h2, h3, h4, h5⟩ := h
  simp only at h1 h2 h3 h4 h5
  cases q with
  | nil => exact ⟨h1, h2, h3, h4, h5⟩
  | cons r rest =>
    have hrb : 1 ≤ r.remaining_time ∧ r.remaining_time ≤ r.processing_time ∧
        1 ≤ r.processing_time := h1 r (List.mem_cons_self _ _)
    have h1r : ∀ x ∈ rest, 1 ≤ x.remaining_time ∧ x.remaining_time ≤ x.processing_time ∧
        1 ≤ x.processing_time := fun x hx => h1 x (List.mem_cons_of_mem _ hx)
    by_cases hr : r.remaining_time ≤ tq
    · simp only [rrStep, hr, if_true, rrGood, List.map_append, List.map_cons, List.map_nil]
      refine ⟨h1r, ?_, ?_, ?_, by omega⟩
      · intro p hp
        rcases List.mem_append.mp hp with hp | hp
        · exact h2 p hp
        · simp only [List.mem_singleton] at hp
          subst hp
          exact ⟨rfl, by simp only; omega⟩
      · intro x hx
        rcases List.mem_append.mp hx with hx | hx
        · have h6 := h3 x hx
          omega
        · simp only [List.mem_singleton] at hx
          subst hx
          omega
      · rw [List.pairwise_append]
        refine ⟨h4, by simp, ?_⟩
        intro a ha b hb
        simp only [List.mem_singleton] at hb
        subst hb
        have h6 := h3 a ha
        omega
    · simp only [rrStep, hr, if_false, rrGood]
      refine ⟨?_, h2, ?_, h4, by omega⟩
      · intro x hx
        rcases List.mem_append.mp hx with hx | hx
        · exact h1r x hx
        · simp only [List.mem_singleton] at hx
          subst hx
          simp only
          omega
      · intro x hx
        have h6 := h3 x hx
        omega

/-- Once the queue is nonempty, after any step the last emission (if the
queue just emptied) equals the clock. -/
def rrLastOk (s : RRState) : Prop :=
  s.queue ≠ [] ∨ (s.completed.map Prod.snd).getLast? = some s.total_time

theorem rrStep_last (tq : ℤ) (s : RRState) (hq : s.queue ≠ []) (h : rrLastOk s) :
    rrLastOk (rrStep tq s) := by
  obtain ⟨q, tt, c⟩ := s
  simp only at hq
  obtain ⟨r, rest, rfl⟩ := List.exists_cons_of_ne_nil hq
  by_cases hr : r.remaining_time ≤ tq
  · right
    simp only [rrStep, hr, if_true, List.map_append, List.map_cons, List.map_nil]
    exact List.getLast?_concat _
  · left
    simp [rrStep, hr]

theorem rrIter_good (tq : ℤ) (htq : 1 ≤ tq) (s : RRState) (h : rrGood s) :
    ∀ k : ℕ, rrGood ((rrStep tq)^[k] s) := by
  intro k
  induction k with
  | zero => simpa using h
  | succ k ih =>
    rw [Function.iterate_succ_apply']
    exact rrStep_good tq htq _ ih

/-- With quantum 0 a nonzero head request is requeued unchanged: the loop
state is a fixed point of the loop body, so the Python loop never exits. -/
theorem rrStep_zero_fixed (r : Request) (hr : 0 < r.remaining_time) (tt : ℤ)
    (c : List (Request × ℤ)) :
    rrStep 0 { queue := [r], total_time := tt, completed := c }
      = { queue := [r], total_time := tt, completed := c } := by
  have hr2 : ¬ (r.remaining_time ≤ 0) := by omega
  simp [rrStep, hr2]

theorem rrRun_zero_diverges (r : Request) (hr : 0 < r.remaining_time) :
    ∀ n : ℕ, rrRun 0 n (initState [r]) = none := by
  intro n
  induction n with
  | zero => simp [rrRun, initState]
  | succ n ih =>
    have hq : (initState [r]).queue ≠ [] := by simp [initState]
    simp only [rrRun, if_neg hq]
    have hfix : rrStep 0 (initState [r]) = initState [r] := by
      simpa [initState] using rrStep_zero_fixed r hr 0 []
    rw [hfix]
    exact ih

/-! ### Stable sort lemmas for the generator -/

theorem insertArrival_perm (r : Request) (l : List Request) :
    (insertArrival r l).Perm (r :: l) := by
  induction l with
  | nil => simp [insertArrival]
  | cons x xs ih =>
    simp only [insertArrival]
    by_cases h : x.arrival_time < r.arrival_time
    · rw [if_pos h]
      exact (ih.cons x).trans (List.Perm.swap r x xs)
    · rw [if_neg h]

theorem sortByArrival_perm (l : List Request) : (sortByArrival l).Perm l := by
  induction l with
  | nil => simp [sortByArrival]
  | cons x xs ih =>
    simp only [sortByArrival]
    exact (insertArrival_perm x (sortByArrival xs)).trans (ih.cons x)

theorem insertArrival_pairwise (r : Request) (l : List Request)
    (hl : List.Pairwise arrivalIdLe l) (hid : ∀ y ∈ l, r.id < y.id) :
    List.Pairwise arrivalIdLe (insertArrival r l) := by
  induction l with
  | nil => simp [insertArrival]
  | cons x xs ih =>
    obtain ⟨hx_rel, hxs⟩ := List.pairwise_cons.mp hl
    by_cases h : x.arrival_time < r.arrival_time
    · simp only [insertArrival, if_pos h]
      refine List.pairwise_cons.mpr
        ⟨?_, ih hxs (fun y hy => hid y (List.mem_cons_of_mem _ hy))⟩
      intro y hy
      have hy2 : y = r ∨ y ∈ xs := by
        have h3 := (insertArrival_perm r xs).mem_iff.mp hy
        simpa using h3
      rcases hy2 with rfl | hy2
      · exact Or.inl h
      · exact hx_rel y hy2
    · simp only [insertArrival, if_neg h]
      refine List.pairwise_cons.mpr ⟨?_, hl⟩
      intro y hy
      have hrx : r.arrival_time ≤ x.arrival_time := not_lt.mp h
      rcases List.mem_cons.mp hy with rfl | hy2
      · rcases lt_or_eq_of_le hrx with h2 | h2
        · exact Or.inl h2
        · exact Or.inr ⟨h2, hid _ (List.mem_cons_self _ _)⟩
      · have hxy := hx_rel y hy2
        rcases hxy with h3 | ⟨h3, h4⟩
        · exact Or.inl (lt_of_le_of_lt hrx h3)
        · rcases lt_or_eq_of_le hrx with h5 | h5
          · exact Or.inl (h5.trans_le (le_of_eq h3))
          · exact Or.inr ⟨h5.trans h3, hid y (List.mem_cons_of_mem _ hy2)⟩

theorem sortByArrival_pairwise (l : List Request)
    (hl : List.Pairwise (fun a b => a.id < b.id) l) :
    List.Pairwise arrivalIdLe (sortByArrival l) := by
  induction l with
  | nil => simp [sortByArrival]
  | cons x xs ih =>
    obtain ⟨hx, hxs⟩ := List.pairwise_cons.mp hl
    simp only [sortByArrival]
    refine insertArrival_pairwise x (sortByArrival xs) (ih hxs) ?_
    intro y hy
    exact hx y ((sortByArrival_perm xs).mem_iff.mp hy)

theorem genList_ids_pairwise (n : ℕ) (ptDraw prDraw : ℕ → ℤ) (arrDraw : ℕ → ℚ) :
    List.Pairwise (fun a b => a.id < b.id)
      ((List.range n).map (fun i => mkRequest i (ptDraw i) (prDraw i) (arrDraw i))) := by
  refine List.Pairwise.map _ ?_ (List.pairwise_lt_range n)
  intro a b hab
  simp only [mkRequest]
  exact_mod_cast hab

/-! ### Claim theorems -/

/-- C1: for every algorithm (round-robin with quantum > 0, priority, sjf,
either preemptive flag) and every batch, the queue is drained to empty
and the completion records are exactly as many as the requests, every
input id appearing exactly as often in the output as in the input (so
exactly once for the distinct-id batches the generator produces). -/
theorem C1_all_algorithms_complete_each_request_once
    (tq : ℤ) (l : List Request) (pre : Bool) (htq : 1 ≤ tq) :
    (∃ f, process_round_robin tq l = some f ∧ f.queue = [] ∧
      f.completed.length = l.length ∧
      (f.completed.map (fun p => p.1.id)).Perm (l.map Request.id)) ∧
    (process_priority_scheduling pre l).length = l.length ∧
    ((process_priority_scheduling pre l).map (fun p => p.1.id)).Perm (l.map Request.id) ∧
    (process_shortest_job_first pre l).length = l.length ∧
    ((process_shortest_job_first pre l).map (fun p => p.1.id)).Perm (l.map Request.id) := by
  obtain ⟨f, hf, hfq⟩ := rrRun_term tq htq (rrMeasure l) (initState l) (by simp [initState])
  have hperm : (stateIds f).Perm (stateIds (initState l)) := by
    refine rrRun_inv tq (fun s => (stateIds s).Perm (stateIds (initState l))) ?_
      (rrMeasure l) (initState l) f hf (List.Perm.refl _)
    intro s hq hP
    exact (rrStep_ids_perm tq s hq).trans hP
  have hids : (f.completed.map (fun p => p.1.id)).Perm (l.map Request.id) := by
    have h2 : stateIds f = f.completed.map (fun p => p.1.id) := by simp [stateIds, hfq]
    have h3 : stateIds (initState l) = l.map Request.id := by simp [stateIds, initState]
    rw [h2, h3] at hperm
    exact hperm
  have hlen : f.completed.length = l.length := by
    have h4 := hids.length_eq
    simpa using h4
  refine ⟨⟨f, hf, hfq, hlen, hids⟩, ?_, ?_, ?_, ?_⟩
  · cases pre
    · exact runSelectAux_length priorityKeyLe l.length l 0 (le_refl _)
    · exact runSelectAux_length priorityPreemptKeyLe l.length l 0 (le_refl _)
  · cases pre
    · exact runSelectAux_ids_perm priorityKeyLe l.length l 0 (le_refl _)
    · exact runSelectAux_ids_perm priorityPreemptKeyLe l.length l 0 (le_refl _)
  · cases pre
    · exact runSelectAux_length sjfKeyLe l.length l 0 (le_refl _)
    · exact runSelectAux_length sjfPreemptKeyLe l.length l 0 (le_refl _)
  · cases pre
    · exact runSelectAux_ids_perm sjfKeyLe l.length l 0 (le_refl _)
    · exact runSelectAux_ids_perm sjfPreemptKeyLe l.length l 0 (le_refl _)

/-- C1 witness: instance at quantum 2 and the two-request batch. -/
theorem C1_witness :
    (1 : ℤ) ≤ 2 ∧
    ((∃ f, process_round_robin 2 [reqA, reqB] = some f ∧ f.queue = [] ∧
      f.completed.length = [reqA, reqB].length ∧
      (f.completed.map (fun p => p.1.id)).Perm ([reqA, reqB].map Request.id)) ∧
    (process_priority_scheduling false [reqA, reqB]).length = [reqA, reqB].length ∧
    ((process_priority_scheduling false [reqA, reqB]).map (fun p => p.1.id)).Perm
      ([reqA, reqB].map Request.id) ∧
    (process_shortest_job_first false [reqA, reqB]).length = [reqA, reqB].length ∧
    ((process_shortest_job_first false [reqA, reqB]).map (fun p => p.1.id)).Perm
      ([reqA, reqB].map Request.id)) :=
  ⟨by norm_num, C1_all_algorithms_complete_each_request_once 2 [reqA, reqB] false (by norm_num)⟩

/-- C2 counterexample: with processing times [5, 3] and quantum 2 the code
completes request 2 at cumulative time 7 and request 1 at time 8, not at
the times 5 and 6 the claim asserts. -/
theorem C2_round_robin_trace_counterexample :
    (process_round_robin 2 [reqA, reqB]).map
        (fun f => f.completed.map (fun p => (p.1.id, p.2))) = some [(2, 7), (1, 8)] ∧
    (process_round_robin 2 [reqA, reqB]).map
        (fun f => f.completed.map (fun p => (p.1.id, p.2))) ≠ some [(2, 5), (1, 6)] := by
  decide

/-- C2 (amended): the slicing rule is exactly as claimed (pop the head;
completion when `remaining_time ≤ quantum`, else slice and requeue), but
on processing times [5, 3] with quantum 2 the resulting completions are
request 2 at cumulative time 7 and request 1 at time 8. -/
theorem C2_round_robin_slicing_rule_amended :
    (∀ (tq : ℤ) (n : ℕ) (r : Request) (rest : List Request) (t : ℤ)
      (comp : List (Request × ℤ)),
      rrRun tq (n + 1) { queue := r :: rest, total_time := t, completed := comp } =
        if r.remaining_time ≤ tq then
          rrRun tq n
            { queue := rest, total_time := t + r.remaining_time,
              completed := comp ++ [({ r with remaining_time := 0 }, t + r.remaining_time)] }
        else
          rrRun tq n
            { queue := rest ++ [{ r with remaining_time := r.remaining_time - tq }],
              total_time := t + tq, completed := comp }) ∧
    (process_round_robin 2 [reqA, reqB]).map
      (fun f => f.completed.map (fun p => (p.1.id, p.2))) = some [(2, 7), (1, 8)] := by
  constructor
  · intro tq n r rest t comp
    by_cases hr : r.remaining_time ≤ tq
    · simp [rrRun, rrStep, hr]
    · simp [rrRun, rrStep, hr]
  · decide

/-- C6: non-preemptive priority scheduling always extracts a request of
globally minimal priority (the queue keeps the rest), charges its full
processing time to the clock, and on the spec's example batch with
priorities [3,1,2] and processing times [4,2,5] completes the priority-1
request at time 2, the priority-2 request at time 7 and the priority-3
request at time 11. -/
theorem C6_priority_nonpreemptive_rule (l : List Request) (t : ℤ) (hl : l ≠ []) :
    (∃ m rest, extractMin priorityKeyLe l = some (m, rest) ∧ m ∈ l ∧
      (∀ x ∈ l, m.priority ≤ x.priority) ∧ (m :: rest).Perm l ∧
      runSelectAux priorityKeyLe l.length l t =
        (m, t + m.processing_time) ::
          runSelectAux priorityKeyLe rest.length rest (t + m.processing_time)) ∧
    (process_priority_scheduling false [reqP3, reqP1, reqP2]).map (fun p => (p.1.id, p.2))
      = [(2, 2), (3, 7), (1, 11)] := by
  constructor
  · obtain ⟨m, rest, h⟩ := extractMin_isSome hl
    refine ⟨m, rest, h, extractMin_mem h, ?_, (extractMin_perm h).symm, ?_⟩
    · intro x hx
      have h2 := extractMin_min priorityKeyLe_total priorityKeyLe_trans h x hx
      simpa [priorityKeyLe] using h2
    · have hlen : l.length = rest.length + 1 := extractMin_length h
      rw [hlen]
      exact runSelectAux_cons priorityKeyLe rest.length l t m rest h
  · decide

/-- C6 witness: instance on the spec's example batch. -/
theorem C6_witness :
    ([reqP3, reqP1, reqP2] : List Request) ≠ [] ∧
    ((∃ m rest, extractMin priorityKeyLe [reqP3, reqP1, reqP2] = some (m, rest) ∧
      m ∈ [reqP3, reqP1, reqP2] ∧
      (∀ x ∈ [reqP3, reqP1, reqP2], m.priority ≤ x.priority) ∧
      (m :: rest).Perm [reqP3, reqP1, reqP2] ∧
      runSelectAux priorityKeyLe [reqP3, reqP1, reqP2].length [reqP3, reqP1, reqP2] 0 =
        (m, 0 + m.processing_time) ::
          runSelectAux priorityKeyLe rest.length rest (0 + m.processing_time)) ∧
    (process_priority_scheduling false [reqP3, reqP1, reqP2]).map (fun p => (p.1.id, p.2))
      = [(2, 2), (3, 7), (1, 11)]) :=
  ⟨by decide, C6_priority_nonpreemptive_rule [reqP3, reqP1, reqP2] 0 (by decide)⟩

/-- C7: preemptive shortest-job-first selects by the pair
(remaining time, arrival time) ascending, still charges the full
processing time in one step, and leaves every request untouched: the
completed requests are exactly the input requests (same structures, in
particular the same `remaining_time`). -/
theorem C7_sjf_preemptive_frame (l : List Request) (t : ℤ) :
    ((process_shortest_job_first true l).map Prod.fst).Perm l ∧
    (∀ p ∈ process_shortest_job_first true l, p.1 ∈ l) ∧
    (l ≠ [] → ∃ m rest, extractMin sjfPreemptKeyLe l = some (m, rest) ∧ m ∈ l ∧
      (∀ x ∈ l, m.remaining_time < x.remaining_time ∨
        (m.remaining_time = x.remaining_time ∧ m.arrival_time ≤ x.arrival_time)) ∧
      runSelectAux sjfPreemptKeyLe l.length l t =
        (m, t + m.processing_time) ::
          runSelectAux sjfPreemptKeyLe rest.length rest (t + m.processing_time)) := by
  have hperm : ((process_shortest_job_first true l).map Prod.fst).Perm l := by
    simp only [process_shortest_job_first, if_true]
    exact runSelectAux_fst_perm sjfPreemptKeyLe l.length l 0 (le_refl _)
  refine ⟨hperm, ?_, ?_⟩
  · intro p hp
    exact hperm.mem_iff.mp (List.mem_map_of_mem Prod.fst hp)
  · intro hl
    obtain ⟨m, rest, h⟩ := extractMin_isSome hl
    refine ⟨m, rest, h, extractMin_mem h, ?_, ?_⟩
    · intro x hx
      have h2 := extractMin_min sjfPreemptKeyLe_total sjfPreemptKeyLe_trans h x hx
      simpa [sjfPreemptKeyLe] using h2
    · have hlen : l.length = rest.length + 1 := extractMin_length h
      rw [hlen]
      exact runSelectAux_cons sjfPreemptKeyLe rest.length l t m rest h

/-- C7 witness: instance on the two-request batch. -/
theorem C7_witness :
    ((process_shortest_job_first true [reqA, reqB]).map Prod.fst).Perm [reqA, reqB] ∧
    (∀ p ∈ process_shortest_job_first true [reqA, reqB], p.1 ∈ [reqA, reqB]) ∧
    (([reqA, reqB] : List Request) ≠ [] →
      ∃ m rest, extractMin sjfPreemptKeyLe [reqA, reqB] = some (m, rest) ∧
      m ∈ [reqA, reqB] ∧
      (∀ x ∈ [reqA, reqB], m.remaining_time < x.remaining_time ∨
        (m.remaining_time = x.remaining_time ∧ m.arrival_time ≤ x.arrival_time)) ∧
      runSelectAux sjfPreemptKeyLe [reqA, reqB].length [reqA, reqB] 0 =
        (m, 0 + m.processing_time) ::
          runSelectAux sjfPreemptKeyLe rest.length rest (0 + m.processing_time)) :=
  C7_sjf_preemptive_frame [reqA, reqB] 0

/-- C9: with a positive quantum every round-robin iteration either
removes a request or leaves the length unchanged while decreasing the
total remaining time by exactly the quantum, so the loop empties the
queue within `rrMeasure` iterations; the selection loops of priority and
sjf remove one request per iteration and finish after exactly as many
iterations as there are requests. -/
theorem C9_every_run_terminates (tq : ℤ) (htq : 1 ≤ tq) :
    (∀ s : RRState, s.queue ≠ [] →
      ((rrStep tq s).queue.length < s.queue.length ∨
        ((rrStep tq s).queue.length = s.queue.length ∧
          totalRemaining (rrStep tq s).queue = totalRemaining s.queue - tq))) ∧
    (∀ l : List Request, ∃ f, process_round_robin tq l = some f ∧ f.queue = []) ∧
    (∀ (le : Request → Request → Bool) (l : List Request) (t : ℤ),
      (runSelectAux le l.length l t).length = l.length) := by
  refine ⟨?_, ?_, ?_⟩
  · intro s hq
    obtain ⟨q, tt, c⟩ := s
    simp only at hq
    obtain ⟨r, rest, rfl⟩ := List.exists_cons_of_ne_nil hq
    by_cases hr : r.remaining_time ≤ tq
    · left
      simp [rrStep, hr]
    · right
      constructor
      · simp [rrStep, hr]
      · simp only [rrStep, hr, if_false, totalRemaining, List.map_append, List.sum_append,
          List.map_cons, List.sum_cons, List.map_nil, List.sum_nil]
        ring
  · intro l
    exact rrRun_term tq htq (rrMeasure l) (initState l) (by simp [initState])
  · intro le l t
    exact runSelectAux_length le l.length l t (le_refl _)

/-- C9 witness: instance at quantum 1. -/
theorem C9_witness :
    (1 : ℤ) ≤ 1 ∧
    ((∀ s : RRState, s.queue ≠ [] →
      ((rrStep 1 s).queue.length < s.queue.length ∨
        ((rrStep 1 s).queue.length = s.queue.length ∧
          totalRemaining (rrStep 1 s).queue = totalRemaining s.queue - 1))) ∧
    (∀ l : List Request, ∃ f, process_round_robin 1 l = some f ∧ f.queue = []) ∧
    (∀ (le : Request → Request → Bool) (l : List Request) (t : ℤ),
      (runSelectAux le l.length l t).length = l.length)) :=
  ⟨by norm_num, C9_every_run_terminates 1 (by norm_num)⟩

/-- Fresh generated batches make the round-robin invariant hold initially. -/
theorem rrGood_init (l : List Request)
    (hfresh : ∀ r ∈ l, 1 ≤ r.processing_time ∧ r.remaining_time = r.processing_time) :
    rrGood (initState l) := by
  refine ⟨?_, ?_, ?_, ?_, ?_⟩
  · intro r hr
    have hr2 : r ∈ l := hr
    obtain ⟨h1, h2⟩ := hfresh r hr2
    exact ⟨by omega, by omega, h1⟩
  · intro p hp
    simp [initState] at hp
  · intro x hx
    simp [initState] at hx
  · simp [initState]
  · simp [initState]

/-- Ids of the round-robin completions are a permutation of the batch ids. -/
theorem rr_final_ids_perm (tq : ℤ) (l : List Request) (f : RRState)
    (hf : rrRun tq (rrMeasure l) (initState l) = some f) (hfq : f.queue = []) :
    (f.completed.map (fun p => p.1.id)).Perm (l.map Request.id) := by
  have hperm : (stateIds f).Perm (stateIds (initState l)) := by
    refine rrRun_inv tq (fun s => (stateIds s).Perm (stateIds (initState l))) ?_
      (rrMeasure l) (initState l) f hf (List.Perm.refl _)
    intro s hq hP
    exact (rrStep_ids_perm tq s hq).trans hP
  have h2 : stateIds f = f.completed.map (fun p => p.1.id) := by simp [stateIds, hfq]
  have h3 : stateIds (initState l) = l.map Request.id := by simp [stateIds, initState]
  rw [h2, h3] at hperm
  exact hperm

/-- C3: for n ≥ 0 and bound T ≥ 0 (and arrival draws in range, as
`random.uniform(0, T)` guarantees) the generator returns exactly n
requests, ids exactly 0..n-1, arrivals within [0, T], sorted
non-decreasing by arrival with ties in generation order. -/
theorem C3_generate_requests_spec (n : ℤ) (T : ℚ) (ptDraw prDraw : ℕ → ℤ)
    (arrDraw : ℕ → ℚ) (hn : 0 ≤ n) (hT : 0 ≤ T)
    (harr : ∀ i, 0 ≤ arrDraw i ∧ arrDraw i ≤ T) :
    ∃ out, generate_requests n T ptDraw prDraw arrDraw = Except.ok out ∧
      (out.length : ℤ) = n ∧
      (out.map Request.id).Perm ((List.range n.toNat).map Int.ofNat) ∧
      (∀ r ∈ out, 0 ≤ r.arrival_time ∧ r.arrival_time ≤ T) ∧
      List.Pairwise arrivalIdLe out ∧
      List.Pairwise (fun a b => a.arrival_time ≤ b.arrival_time) out := by
  have hgl := sortByArrival_perm ((List.range n.toNat).map
    (fun i => mkRequest i (ptDraw i) (prDraw i) (arrDraw i)))
  have hpw := sortByArrival_pairwise _ (genList_ids_pairwise n.toNat ptDraw prDraw arrDraw)
  refine ⟨_, rfl, ?_, ?_, ?_, hpw, ?_⟩
  · have h1 := hgl.length_eq
    simp only [List.length_map, List.length_range] at h1
    simp [h1, Int.toNat_of_nonneg hn]
  · have h2 := hgl.map Request.id
    have h3 : ((List.range n.toNat).map
        (fun i => mkRequest i (ptDraw i) (prDraw i) (arrDraw i))).map Request.id
        = (List.range n.toNat).map Int.ofNat := by
      simp only [List.map_map]
      rfl
    rw [h3] at h2
    exact h2
  · intro r hr
    have hr2 := hgl.mem_iff.mp hr
    obtain ⟨i, hi, rfl⟩ := List.mem_map.mp hr2
    simpa [mkRequest] using harr i
  · refine hpw.imp ?_
    intro a b h
    rcases h with h | ⟨h, -⟩
    · exact le_of_lt h
    · exact le_of_eq h

/-- C3 witness: instance with n = 2, T = 1 and constant draws. -/
theorem C3_witness :
    (0 : ℤ) ≤ 2 ∧ (0 : ℚ) ≤ 1 ∧
    (∀ i : ℕ, 0 ≤ constantRatDraw i ∧ constantRatDraw i ≤ 1) ∧
    (∃ out, generate_requests 2 1 constantIntDraw constantIntDraw constantRatDraw
        = Except.ok out ∧
      (out.length : ℤ) = 2 ∧
      (out.map Request.id).Perm ((List.range (2 : ℤ).toNat).map Int.ofNat) ∧
      (∀ r ∈ out, 0 ≤ r.arrival_time ∧ r.arrival_time ≤ 1) ∧
      List.Pairwise arrivalIdLe out ∧
      List.Pairwise (fun a b => a.arrival_time ≤ b.arrival_time) out) :=
  ⟨by norm_num, by norm_num,
    fun i => ⟨by norm_num [constantRatDraw], by norm_num [constantRatDraw]⟩,
    C3_generate_requests_spec 2 1 constantIntDraw constantIntDraw constantRatDraw
      (by norm_num) (by norm_num)
      (fun i => ⟨by norm_num [constantRatDraw], by norm_num [constantRatDraw]⟩)⟩

/-- C8 counterexample: the generator does not fail on negative inputs.
With n = -1 it returns the empty batch (Python's `range` of a negative
int is empty), and with a negative arrival bound it still returns a
normal batch; no `InvalidArgument` failure occurs. -/
theorem C8_generate_negative_counterexample :
    generate_requests (-1) 50 constantIntDraw constantIntDraw constantRatDraw
      = Except.ok [] ∧
    generate_requests 1 (-5) constantIntDraw constantIntDraw constantRatDraw
      = Except.ok [mkRequest 0 5 5 1] := by
  exact ⟨rfl, rfl⟩

/-- C8 (amended): `generate_requests` performs no input validation and
never fails: it always returns a batch, and for n < 0 that batch is
empty (for T < 0 `random.uniform(0, T)` simply draws from [T, 0]). -/
theorem C8_generate_no_validation_amended :
    (∀ (n : ℤ) (T : ℚ) (d1 d2 : ℕ → ℤ) (d3 : ℕ → ℚ),
      ∃ out, generate_requests n T d1 d2 d3 = Except.ok out) ∧
    (∀ (n : ℤ) (T : ℚ) (d1 d2 : ℕ → ℤ) (d3 : ℕ → ℚ), n < 0 →
      generate_requests n T d1 d2 d3 = Except.ok []) := by
  constructor
  · intro n T d1 d2 d3
    exact ⟨_, rfl⟩
  · intro n T d1 d2 d3 hn
    have h0 : n.toNat = 0 := by omega
    simp [generate_requests, h0, sortByArrival]

/-- C8 witness: instance at n = -2. -/
theorem C8_witness :
    (-2 : ℤ) < 0 ∧
    generate_requests (-2) 50 constantIntDraw constantIntDraw constantRatDraw
      = Except.ok [] :=
  ⟨by norm_num, C8_generate_no_validation_amended.2 (-2) 50 constantIntDraw constantIntDraw
    constantRatDraw (by norm_num)⟩

/-- C5 counterexample: with quantum 0 the round-robin branch of the
simulation driver produces no `InvalidArgument` failure; the loop body
fixes the state (the head request is requeued unchanged), so the Python
loop spins forever and no error and no completion is ever produced. -/
theorem C5_invalid_quantum_counterexample :
    simulate_fuel 5 [reqA] "round_robin" 0 false = none ∧
    rrStep 0 (initState [reqA]) = initState [reqA] ∧
    (initState [reqA]).queue ≠ [] := by
  exact ⟨rfl, by decide, by decide⟩

/-- C5 (amended): the driver raises `ValueError` (the InvalidArgument of
the spec) exactly on an unknown algorithm selector, before any completion
is produced; it does not validate the quantum: with quantum 0 the
round-robin loop never terminates (no error, no completions, for any
amount of fuel). -/
theorem C5_simulate_validation_amended :
    (∀ (fuel : ℕ) (reqs : List Request) (alg : String) (tq : ℤ) (pre : Bool),
      alg ≠ "round_robin" → alg ≠ "priority" → alg ≠ "sjf" →
      simulate_fuel fuel reqs alg tq pre
        = some (Except.error "Invalid scheduling algorithm")) ∧
    (∀ fuel : ℕ, simulate_fuel fuel [reqA] "round_robin" 0 false = none) := by
  constructor
  · intro fuel reqs alg tq pre h1 h2 h3
    simp [simulate_fuel, h1, h2, h3]
  · intro fuel
    have h := rrRun_zero_diverges reqA (by norm_num [reqA]) fuel
    simp [simulate_fuel, h]

/-- C5 witness: unknown selector "fcfs" errors; quantum 0 diverges. -/
theorem C5_witness :
    ("fcfs" : String) ≠ "round_robin" ∧ ("fcfs" : String) ≠ "priority" ∧
    ("fcfs" : String) ≠ "sjf" ∧
    simulate_fuel 3 [reqA] "fcfs" 7 false
      = some (Except.error "Invalid scheduling algorithm") ∧
    simulate_fuel 3 [reqA] "round_robin" 0 false = none :=
  ⟨by decide, by decide, by decide,
    C5_simulate_validation_amended.1 3 [reqA] "fcfs" 7 false (by decide) (by decide) (by decide),
    C5_simulate_validation_amended.2 3⟩

/-- C4 counterexample: priority scheduling completes a request without
ever touching its `remaining_time`: the singleton priority-1 request
appears in the completion records with `remaining_time = 2 ≠ 0`,
refuting "a Request is complete iff its remaining_time equals 0". -/
theorem C4_complete_iff_zero_counterexample :
    process_priority_scheduling false [reqP1] = [(reqP1, 2)] ∧
    reqP1.remaining_time = 2 := by
  decide

/-- C4 (amended): in every run `remaining_time` stays within
[0, processing_time] (for fresh batches with positive processing times
and a positive quantum): along the round-robin loop queued requests keep
`1 ≤ remaining ≤ processing` and completed ones have `remaining = 0`
(reached exactly once per request, by the id permutation); priority and
sjf never modify `remaining_time` — their completed requests are the
input requests unchanged, with `remaining_time = processing_time`. -/
theorem C4_remaining_time_invariant_amended (tq : ℤ) (l : List Request) (pre : Bool)
    (htq : 1 ≤ tq)
    (hfresh : ∀ r ∈ l, 1 ≤ r.processing_time ∧ r.remaining_time = r.processing_time) :
    (∀ k : ℕ,
      (∀ r ∈ ((rrStep tq)^[k] (initState l)).queue,
        1 ≤ r.remaining_time ∧ r.remaining_time ≤ r.processing_time) ∧
      (∀ p ∈ ((rrStep tq)^[k] (initState l)).completed,
        p.1.remaining_time = 0 ∧ 0 ≤ p.1.remaining_time ∧
          p.1.remaining_time ≤ p.1.processing_time)) ∧
    (∃ f, process_round_robin tq l = some f ∧ f.queue = [] ∧
      (∀ p ∈ f.completed, p.1.remaining_time = 0) ∧
      (f.completed.map (fun p => p.1.id)).Perm (l.map Request.id)) ∧
    ((process_priority_scheduling pre l).map Prod.fst).Perm l ∧
    (∀ p ∈ process_priority_scheduling pre l, p.1.remaining_time = p.1.processing_time) ∧
    ((process_shortest_job_first pre l).map Prod.fst).Perm l ∧
    (∀ p ∈ process_shortest_job_first pre l, p.1.remaining_time = p.1.processing_time) := by
  have hgood0 : rrGood (initState l) := rrGood_init l hfresh
  refine ⟨?_, ?_, ?_, ?_, ?_, ?_⟩
  · intro k
    obtain ⟨hk1, hk2, -, -, -⟩ := rrIter_good tq htq (initState l) hgood0 k
    refine ⟨fun r hr => ⟨(hk1 r hr).1, (hk1 r hr).2.1⟩, fun p hp => ?_⟩
    obtain ⟨hz, hpt⟩ := hk2 p hp
    exact ⟨hz, by omega, by omega⟩
  · obtain ⟨f, hf, hfq⟩ := rrRun_term tq htq (rrMeasure l) (initState l) (by simp [initState])
    have hgoodf : rrGood f :=
      rrRun_inv tq rrGood (fun s _ h => rrStep_good tq htq s h) _ _ _ hf hgood0
    exact ⟨f, hf, hfq, fun p hp => (hgoodf.2.1 p hp).1, rr_final_ids_perm tq l f hf hfq⟩
  · cases pre
    · exact runSelectAux_fst_perm priorityKeyLe l.length l 0 (le_refl _)
    · exact runSelectAux_fst_perm priorityPreemptKeyLe l.length l 0 (le_refl _)
  · intro p hp
    have hmem : p.1 ∈ l := by
      cases pre
      · exact (runSelectAux_fst_perm priorityKeyLe l.length l 0 (le_refl _)).mem_iff.mp
          (List.mem_map_of_mem Prod.fst hp)
      · exact (runSelectAux_fst_perm priorityPreemptKeyLe l.length l 0 (le_refl _)).mem_iff.mp
          (List.mem_map_of_mem Prod.fst hp)
    exact (hfresh p.1 hmem).2
  · cases pre
    · exact runSelectAux_fst_perm sjfKeyLe l.length l 0 (le_refl _)
    · exact runSelectAux_fst_perm sjfPreemptKeyLe l.length l 0 (le_refl _)
  · intro p hp
    have hmem : p.1 ∈ l := by
      cases pre
      · exact (runSelectAux_fst_perm sjfKeyLe l.length l 0 (le_refl _)).mem_iff.mp
          (List.mem_map_of_mem Prod.fst hp)
      · exact (runSelectAux_fst_perm sjfPreemptKeyLe l.length l 0 (le_refl _)).mem_iff.mp
          (List.mem_map_of_mem Prod.fst hp)
    exact (hfresh p.1 hmem).2

/-- C4 witness: instance at quantum 2 on the two-request batch. -/
theorem C4_witness :
    (1 : ℤ) ≤ 2 ∧
    (∀ r ∈ ([reqA, reqB] : List Request),
      1 ≤ r.processing_time ∧ r.remaining_time = r.processing_time) ∧
    ((∀ k : ℕ,
      (∀ r ∈ ((rrStep 2)^[k] (initState [reqA, reqB])).queue,
        1 ≤ r.remaining_time ∧ r.remaining_time ≤ r.processing_time) ∧
      (∀ p ∈ ((rrStep 2)^[k] (initState [reqA, reqB])).completed,
        p.1.remaining_time = 0 ∧ 0 ≤ p.1.remaining_time ∧
          p.1.remaining_time ≤ p.1.processing_time)) ∧
    (∃ f, process_round_robin 2 [reqA, reqB] = some f ∧ f.queue = [] ∧
      (∀ p ∈ f.completed, p.1.remaining_time = 0) ∧
      (f.completed.map (fun p => p.1.id)).Perm ([reqA, reqB].map Request.id)) ∧
    ((process_priority_scheduling false [reqA, reqB]).map Prod.fst).Perm [reqA, reqB] ∧
    (∀ p ∈ process_priority_scheduling false [reqA, reqB],
      p.1.remaining_time = p.1.processing_time) ∧
    ((process_shortest_job_first false [reqA, reqB]).map Prod.fst).Perm [reqA, reqB] ∧
    (∀ p ∈ process_shortest_job_first false [reqA, reqB],
      p.1.remaining_time = p.1.processing_time)) :=
  ⟨by norm_num, by decide,
    C4_remaining_time_invariant_amended 2 [reqA, reqB] false (by norm_num) (by decide)⟩

/-- C10: on a fresh batch with positive processing times, every
algorithm finishes its last request at cumulative time equal to the sum
of all processing times (round-robin additionally ends with exactly that
clock value), and within each run the emitted completion times are
strictly positive and non-decreasing in emission order. -/
theorem C10_same_final_time_and_monotone (tq : ℤ) (l : List Request) (pre : Bool)
    (htq : 1 ≤ tq)
    (hfresh : ∀ r ∈ l, 1 ≤ r.processing_time ∧ r.remaining_time = r.processing_time)
    (hne : l ≠ []) :
    (∃ f, process_round_robin tq l = some f ∧ f.queue = [] ∧
      f.total_time = (l.map (fun r => r.processing_time)).sum ∧
      (f.completed.map Prod.snd).getLast?
        = some ((l.map (fun r => r.processing_time)).sum) ∧
      List.Pairwise (· ≤ ·) (f.completed.map Prod.snd) ∧
      ∀ x ∈ f.completed.map Prod.snd, 0 < x) ∧
    (((process_priority_scheduling pre l).map Prod.snd).getLast?
        = some ((l.map (fun r => r.processing_time)).sum) ∧
      List.Pairwise (· ≤ ·) ((process_priority_scheduling pre l).map Prod.snd) ∧
      ∀ x ∈ (process_priority_scheduling pre l).map Prod.snd, 0 < x) ∧
    (((process_shortest_job_first pre l).map Prod.snd).getLast?
        = some ((l.map (fun r => r.processing_time)).sum) ∧
      List.Pairwise (· ≤ ·) ((process_shortest_job_first pre l).map Prod.snd) ∧
      ∀ x ∈ (process_shortest_job_first pre l).map Prod.snd, 0 < x) := by
  have hsum_eq : totalRemaining l = (l.map (fun r => r.processing_time)).sum := by
    unfold totalRemaining
    congr 1
    exact List.map_congr_left (fun r hr => (hfresh r hr).2)
  have hpt : ∀ r ∈ l, 1 ≤ r.processing_time := fun r hr => (hfresh r hr).1
  obtain ⟨f, hf, hfq⟩ := rrRun_term tq htq (rrMeasure l) (initState l) (by simp [initState])
  have hgoodf : rrGood f :=
    rrRun_inv tq rrGood (fun s _ h => rrStep_good tq htq s h) _ _ _ hf (rrGood_init l hfresh)
  have htotal : f.total_time + totalRemaining f.queue = 0 + totalRemaining l := by
    refine rrRun_inv tq
      (fun s => s.total_time + totalRemaining s.queue = 0 + totalRemaining l) ?_ _ _ _ hf ?_
    · intro s hq hP
      rw [rrStep_total tq s hq]
      exact hP
    · simp [initState]
  have hft : f.total_time = (l.map (fun r => r.processing_time)).sum := by
    have h7 : totalRemaining f.queue = 0 := by rw [hfq]; simp [totalRemaining]
    rw [h7, hsum_eq] at htotal
    linarith
  have hlast : rrLastOk f :=
    rrRun_inv tq rrLastOk (fun s hq h => rrStep_last tq s hq h) _ _ _ hf
      (Or.inl (by simpa [initState] using hne))
  have hlast2 : (f.completed.map Prod.snd).getLast? = some f.total_time := by
    rcases hlast with h | h
    · exact absurd hfq h
    · exact h
  refine ⟨⟨f, hf, hfq, hft, by rw [hlast2, hft], hgoodf.2.2.2.1, ?_⟩, ?_, ?_⟩
  · intro x hx
    have h8 := hgoodf.2.2.1 x hx
    omega
  · cases pre
    · obtain ⟨p1, p2, p3⟩ := runSelectAux_times priorityKeyLe l.length l 0 (le_refl _) hpt
      refine ⟨by simpa using p3 hne, p2, ?_⟩
      intro x hx
      have h9 := p1 x hx
      omega
    · obtain ⟨p1, p2, p3⟩ :=
        runSelectAux_times priorityPreemptKeyLe l.length l 0 (le_refl _) hpt
      refine ⟨by simpa using p3 hne, p2, ?_⟩
      intro x hx
      have h9 := p1 x hx
      omega
  · cases pre
    · obtain ⟨p1, p2, p3⟩ := runSelectAux_times sjfKeyLe l.length l 0 (le_refl _) hpt
      refine ⟨by simpa using p3 hne, p2, ?_⟩
      intro x hx
      have h9 := p1 x hx
      omega
    · obtain ⟨p1, p2, p3⟩ := runSelectAux_times sjfPreemptKeyLe l.length l 0 (le_refl _) hpt
      refine ⟨by simpa using p3 hne, p2, ?_⟩
      intro x hx
      have h9 := p1 x hx
      omega

/-- C10 witness: instance at quantum 2 on the two-request batch. -/
theorem C10_witness :
    (1 : ℤ) ≤ 2 ∧
    (∀ r ∈ ([reqA, reqB] : List Request),
      1 ≤ r.processing_time ∧ r.remaining_time = r.processing_time) ∧
    ([reqA, reqB] : List Request) ≠ [] ∧
    ((∃ f, process_round_robin 2 [reqA, reqB] = some f ∧ f.queue = [] ∧
      f.total_time = ([reqA, reqB].map (fun r => r.processing_time)).sum ∧
      (f.completed.map Prod.snd).getLast?
        = some (([reqA, reqB].map (fun r => r.processing_time)).sum) ∧
      List.Pairwise (· ≤ ·) (f.completed.map Prod.snd) ∧
      ∀ x ∈ f.completed.map Prod.snd, 0 < x) ∧
    (((process_priority_scheduling false [reqA, reqB]).map Prod.snd).getLast?
        = some (([reqA, reqB].map (fun r => r.processing_time)).sum) ∧
      List.Pairwise (· ≤ ·) ((process_priority_scheduling false [reqA, reqB]).map Prod.snd) ∧
      ∀ x ∈ (process_priority_scheduling false [reqA, reqB]).map Prod.snd, 0 < x) ∧
    (((process_shortest_job_first false [reqA, reqB]).map Prod.snd).getLast?
        = some (([reqA, reqB].map (fun r => r.processing_time)).sum) ∧
      List.Pairwise (· ≤ ·) ((process_shortest_job_first false [reqA, reqB]).map Prod.snd) ∧
      ∀ x ∈ (process_shortest_job_first false [reqA, reqB]).map Prod.snd, 0 < x)) :=
  ⟨by norm_num, by decide, by decide,
    C10_same_final_time_and_monotone 2 [reqA, reqB] false (by norm_num) (by decide) (by decide)⟩
